import Mathlib

/-!
Verification of the article ranking and field-mapping core of the
ai-driven-smart-news repository, a shallow embedding of
`src/core/news_filter.py` (`_get_by_path`, `_parse_date`, `filter_top_n`)
and `src/core/news_fetcher.py` (`get_by_path` and the response-mapping
portion of `NewsFetcher.fetch_news`).

Python values are embedded as the inductive type `Value` (JSON-like data:
`None`, booleans, integers, strings, lists, string-keyed dicts).
Python `datetime` objects are embedded as `DT`: an awareness flag
(`False` = naive, `True` = timezone-aware) together with an instant
measured in abstract units from `datetime.min`; comparing two datetimes of
different awareness raises `TypeError` in Python, which the embedding
models with `Except Unit`.  The third-party parser `dateutil.parser.parse`
is not repository code; every definition and theorem is parameterised by
an abstract parser `dp : String → Option DT` (returning `none` exactly
when `dateutil` raises, i.e. when `_parse_date` returns `None`).
Fallible Python code (code that can raise) is embedded in `Except Unit`.
-/

/-- Embedded Python/JSON value: `None`, `bool`, `int`, `str`, `list`, `dict`
(string keys, first binding wins, as Python dict keys are unique). -/
inductive Value where
  | null
  | bool (b : Bool)
  | int (n : Int)
  | str (s : String)
  | list (items : List Value)
  | dict (fields : List (String × Value))

/-- Character-level worker for `splitDot`. -/
def splitDotChars : List Char → List (List Char)
  | [] => [[]]
  | c :: cs =>
    if c = '.' then [] :: splitDotChars cs
    else
      match splitDotChars cs with
      | [] => [[c]]
      | g :: gs => (c :: g) :: gs

/-- Python's `path.split('.')` (explicit single-character separator):
`"" ↦ [""]`, `"a.b" ↦ ["a","b"]`, `"a." ↦ ["a",""]`.  Implemented over the
character list so that it evaluates by kernel reduction. -/
def splitDot (s : String) : List String :=
  (splitDotChars s.data).map (fun cs => String.mk cs)

/-- Python `dict` lookup (`d[k]` presence / `d.get(k)` without default):
first binding with the given key, if any. -/
def dictGet : List (String × Value) → String → Option Value
  | [], _ => none
  | (k, v) :: rest, key => if k = key then some v else dictGet rest key

/-- Python truthiness of an embedded value (`if v:`). -/
def truthy : Value → Bool
  | .null => false
  | .bool b => b
  | .int n => n != 0
  | .str s => s ≠ ""
  | .list items => !items.isEmpty
  | .dict fields => !fields.isEmpty

/-- Embedded Python `datetime`: awareness flag (`true` = timezone-aware)
and the comparison instant, in abstract time units counted from
`datetime.min` (Python datetimes are bounded below by `datetime.min`,
so naive instants are nonnegative; aware datetimes are only ever compared
with aware ones, where the same scale applies). -/
structure DT where
  aware : Bool
  instant : Nat
deriving DecidableEq

/-- `datetime.min`: naive, and the least instant a naive datetime can have. -/
def dtMin : DT := ⟨false, 0⟩

/-- Python `<` on datetimes: comparing a naive with an aware datetime
raises `TypeError` (modelled as `.error ()`); otherwise instants compare. -/
def DT.pyLt (a b : DT) : Except Unit Bool :=
  if a.aware = b.aware then .ok (decide (a.instant < b.instant)) else .error ()

/-- Embeds `_get_by_path` from `src/core/news_filter.py`: descend through
nested dicts one dot-separated segment at a time; `None`/empty path, a
non-dict at any step, a missing key, or a `None` value all yield `none`
(the function's "missing" signal), never an exception. -/
def getByPathScalar (obj : Value) (path : Option String) : Option Value :=
  match path with
  | none => none
  | some p =>
    if p = "" then none
    else go obj (splitDot p)
where
  /-- One loop iteration of `_get_by_path`: `cur = cur.get(p)` guarded by
  `isinstance(cur, dict)` and the `cur is None` early return. -/
  go : Value → List String → Option Value
    | cur, [] => some cur
    | cur, p :: ps =>
      match cur with
      | .dict fs =>
        match dictGet fs p with
        | none => none
        | some .null => none
        | some v => go v ps
      | _ => none

/-- Embeds `get_by_path` from `src/core/news_fetcher.py`:
`obj = obj.get(part, {})` for each segment.  Calling `.get` on a non-dict
(including `None`, numbers, strings, lists) raises `AttributeError`,
modelled as `.error ()`; a missing key substitutes the empty dict `{}`. -/
def getByPathList (obj : Value) (path : String) : Except Unit Value :=
  go obj (splitDot path)
where
  /-- The `for part in path.split('.')` loop of `get_by_path`. -/
  go : Value → List String → Except Unit Value
    | cur, [] => .ok cur
    | cur, p :: ps =>
      match cur with
      | .dict fs => go ((dictGet fs p).getD (.dict [])) ps
      | _ => .error ()

/-- Embeds `_parse_date` from `src/core/news_filter.py` for a string
argument: falsy (empty) strings return `None`; otherwise
`dateutil.parser.parse` (the abstract parameter `dp`) is tried, with its
exceptions already collapsed to `none` by the `try/except`. -/
def pyParseDate (dp : String → Option DT) (s : String) : Option DT :=
  if s = "" then none else dp s

/-- The timestamp-normalisation step of `filter_top_n`
(`src/core/news_filter.py` lines 55-60):
`parsed = _parse_date(raw_ts) if isinstance(raw_ts, str) else None`.
Only string raw values are eligible; everything else (absent, `None`,
numbers, lists, dicts, booleans) is unparseable. -/
def normalizeTs (dp : String → Option DT) (raw : Option Value) : Option DT :=
  match raw with
  | some (.str s) => pyParseDate dp s
  | _ => none

/-- Whether a raw extracted value is a (present) string — the
`isinstance(raw_ts, str)` test of `filter_top_n`. -/
def isStrOpt : Option Value → Bool
  | some (.str _) => true
  | _ => false

/-- `response_mapping.get("published_at_path")` in `filter_top_n`:
`.get` on a non-dict raises `AttributeError`; a missing key yields `None`. -/
def ppOf (mapping : Value) : Except Unit Value :=
  match mapping with
  | .dict fs => .ok ((dictGet fs "published_at_path").getD .null)
  | _ => .error ()

/-- Per-article timestamp extraction and normalisation in `filter_top_n`:
`raw_ts = _get_by_path(art, published_path) if published_path else None`
followed by the `isinstance` guard.  A truthy non-string
`published_at_path` raises (`.split` on a non-string). -/
def parsedOf (dp : String → Option DT) (pp : Value) (art : Value) :
    Except Unit (Option DT) :=
  if truthy pp then
    match pp with
    | .str s => .ok (normalizeTs dp (getByPathScalar art (some s)))
    | _ => .error ()
  else .ok none

/-- The annotated record `{"_orig_index": idx, "_parsed_at": parsed,
"article": art}` built by `filter_top_n`'s loop. -/
structure Annotated where
  origIndex : Nat
  parsedAt : Option DT
  article : Value

/-- The `for idx, art in enumerate(articles)` loop of `filter_top_n`,
carrying the running index. -/
def annotateGo (dp : String → Option DT) (pp : Value) :
    Nat → List Value → Except Unit (List Annotated)
  | _, [] => .ok []
  | i, art :: rest =>
    match parsedOf dp pp art with
    | .error e => .error e
    | .ok p =>
      match annotateGo dp pp (i + 1) rest with
      | .error e => .error e
      | .ok r => .ok (⟨i, p, art⟩ :: r)

/-- Proof-side description of a successful annotation pass: the parsed
timestamp of each article is given by the function `f`. -/
def annPure (f : Value → Option DT) : Nat → List Value → List Annotated
  | _, [] => []
  | i, a :: rest => ⟨i, f a, a⟩ :: annPure f (i + 1) rest

/-- The sort key `_key` of `filter_top_n`: the parsed timestamp, or
`datetime.min` for articles without one. -/
def keyOf (a : Annotated) : DT := a.parsedAt.getD dtMin

/-- The instant of the sort key (used on uniformly-aware lists, where the
datetime comparison never raises). -/
def kAnn (a : Annotated) : Nat := (keyOf a).instant

/-- Key comparison made by `annotated.sort(key=_key, reverse=True)`:
Python `<` on the two keys, which raises on mixed awareness. -/
def ltAnn (a b : Annotated) : Except Unit Bool := DT.pyLt (keyOf a) (keyOf b)

/-- Fallible stable-descending insertion: place `x` (an element earlier in
the input than everything in the list) before the first strictly-smaller
element, propagating a comparison error. -/
def insED (x : Annotated) : List Annotated → Except Unit (List Annotated)
  | [] => .ok [x]
  | y :: ys =>
    match ltAnn x y with
    | .error e => .error e
    | .ok true =>
      match insED x ys with
      | .error e => .error e
      | .ok r => .ok (y :: r)
    | .ok false => .ok (x :: y :: ys)

/-- Embeds `annotated.sort(key=_key, reverse=True)`: a stable descending
comparison sort over Python datetimes.  CPython's sort is stable also
under `reverse=True`, and any correct stable comparison sort computes the
same list; it raises `TypeError` exactly when the list holds both naive
and aware keys, since some comparison must then cross the two groups. -/
def sortED : List Annotated → Except Unit (List Annotated)
  | [] => .ok []
  | x :: xs =>
    match sortED xs with
    | .error e => .error e
    | .ok r => insED x r

/-- Pure stable-descending insertion by `kAnn` (what `insED` computes when
no comparison raises). -/
def insD (x : Annotated) : List Annotated → List Annotated
  | [] => [x]
  | y :: ys => if kAnn x < kAnn y then y :: insD x ys else x :: y :: ys

/-- Pure stable descending insertion sort by `kAnn`. -/
def sortD : List Annotated → List Annotated
  | [] => []
  | x :: xs => insD x (sortD xs)

/-- Stable ascending insertion by `origIndex` (for the no-timestamp
branch `annotated.sort(key=lambda x: x["_orig_index"])`; integer keys,
so this sort never raises). -/
def insA (x : Annotated) : List Annotated → List Annotated
  | [] => [x]
  | y :: ys => if y.origIndex < x.origIndex then y :: insA x ys else x :: y :: ys

/-- Embeds `annotated.sort(key=lambda x: x["_orig_index"])`. -/
def sortA : List Annotated → List Annotated
  | [] => []
  | x :: xs => insA x (sortA xs)

/-- Length of Python's slice `a[:n]` on a list of length `len`:
nonnegative `n` keeps the first `n` items; negative `n` drops the last
`|n|` items (`max(0, len + n)`). -/
def sliceLen (len : Nat) (n : Int) : Nat :=
  if 0 ≤ n then n.toNat else len - (-n).toNat

/-- Python's slice `a[:n]` for an arbitrary integer `n`. -/
def pySlice (l : List α) (n : Int) : List α :=
  l.take (sliceLen l.length n)

/-- Embeds `filter_top_n` from `src/core/news_filter.py`: read
`published_at_path` from the mapping, annotate every article with its
parsed timestamp and original index, sort descending by timestamp when at
least one parsed (missing ones keyed by `datetime.min`), otherwise sort by
original index, then slice to the first `n` and strip the annotations. -/
def filter_top_n (dp : String → Option DT) (articles : List Value)
    (response_mapping : Value) (n : Int) : Except Unit (List Value) :=
  match ppOf response_mapping with
  | .error e => .error e
  | .ok pp =>
    match annotateGo dp pp 0 articles with
    | .error e => .error e
    | .ok ann =>
      match if ann.any (fun a => a.parsedAt.isSome) then sortED ann
            else .ok (sortA ann) with
      | .error e => .error e
      | .ok sorted => .ok ((pySlice sorted n).map (fun a => a.article))

/-- `mapping.get(key, default)` inside `fetch_news`: `.get` on a non-dict
raises `AttributeError`. -/
def vget (v : Value) (key : String) (dflt : Value) : Except Unit Value :=
  match v with
  | .dict fs => .ok ((dictGet fs key).getD dflt)
  | _ => .error ()

/-- `item.get(key, "")` in the mapping loop of `fetch_news`: raises on a
non-dict item; on a (string-keyed) dict a non-string key matches nothing,
so the default `""` is returned. -/
def itemGet (item : Value) (key : Value) : Except Unit Value :=
  match item with
  | .dict fs =>
    match key with
    | .str s => .ok ((dictGet fs s).getD (.str ""))
    | _ => .ok (.str "")
  | _ => .error ()

/-- One iteration of the article-building loop of `fetch_news`
(`src/core/news_fetcher.py` lines 118-122): build
`{"title": item.get(mapping.get("title", "title"), ""),
  "url": item.get(mapping.get("url", "url"), "")}`. -/
def mapItem (mapping item : Value) : Except Unit Value :=
  match vget mapping "title" (.str "title") with
  | .error e => .error e
  | .ok tKey =>
    match itemGet item tKey with
    | .error e => .error e
    | .ok t =>
      match vget mapping "url" (.str "url") with
      | .error e => .error e
      | .ok uKey =>
        match itemGet item uKey with
        | .error e => .error e
        | .ok u => .ok (.dict [("title", t), ("url", u)])

/-- Sequential fallible map: the Python `for item in items:` append loop,
aborting at the first raised exception. -/
def mapE (f : α → Except Unit β) : List α → Except Unit (List β)
  | [] => .ok []
  | x :: xs =>
    match f x with
    | .error e => .error e
    | .ok y =>
      match mapE f xs with
      | .error e => .error e
      | .ok ys => .ok (y :: ys)

/-- Locating the raw article list in `fetch_news`:
`articles_path = mapping.get("articles_path", "articles")`,
`items = get_by_path(data, articles_path)`, then
`if not isinstance(items, list): items = []`.  A non-string configured
path raises (`.split` on a non-string). -/
def locateItems (mapping data : Value) : Except Unit (List Value) :=
  match vget mapping "articles_path" (.str "articles") with
  | .error e => .error e
  | .ok (.str s) =>
    match getByPathList data s with
    | .error e => .error e
    | .ok (.list l) => .ok l
    | .ok _ => .ok []
  | .ok _ => .error ()

/-- The whole mapping section of `fetch_news` (lines 113-124): locate the
items and build one `{"title", "url"}` record per item, in order. -/
def extractArticles (mapping data : Value) : Except Unit (List Value) :=
  match locateItems mapping data with
  | .error e => .error e
  | .ok items => mapE (mapItem mapping) items

/-- `fetch_news`'s observable mapping result: the extraction runs inside
`try/except`, so any raised exception is caught and the caller receives
`{}`; on success the caller receives `{"articles": articles}`. -/
def mapResponse (mapping data : Value) : Value :=
  match extractArticles mapping data with
  | .ok arts => .dict [("articles", .list arts)]
  | .error _ => .dict []

/-! ## Concrete fixtures for closed instances

Abstract `dateutil` behaviours below record real `dateutil.parser.parse`
outcomes on the fixture strings: a trailing `Z`/offset yields an aware
datetime, no offset yields a naive one, and `"0001-01-01 00:00:00"` parses
to `datetime.min` exactly. -/

/-- Parser fixture for the spec's ranking scenario (all aware, `Z`). -/
def dpC8 : String → Option DT := fun s =>
  if s = "2025-09-12T10:00:00Z" then some ⟨true, 10⟩
  else if s = "2025-09-12T12:00:00Z" then some ⟨true, 12⟩
  else if s = "2025-09-12T09:00:00Z" then some ⟨true, 9⟩
  else none

/-- The spec scenario's three articles. -/
def artsC8 : List Value :=
  [.dict [("id", .int 1), ("published_at", .str "2025-09-12T10:00:00Z")],
   .dict [("id", .int 2), ("published_at", .str "2025-09-12T12:00:00Z")],
   .dict [("id", .int 3), ("published_at", .str "2025-09-12T09:00:00Z")]]

/-- The scenario's response mapping. -/
def mapPA : Value := .dict [("published_at_path", .str "published_at")]

/-- The timestamp each scenario article parses to (via the code's own
extraction pipeline, so hypotheses about it evaluate by `decide`). -/
def tsC8 : Value → DT := fun v =>
  (normalizeTs dpC8 (getByPathScalar v (some "published_at"))).getD dtMin

/-- Parser fixture for the spec's tie-break example P2 (naive datetimes). -/
def dpC1 : String → Option DT := fun s =>
  if s = "2025-09-12 12:00" then some ⟨false, 12⟩
  else if s = "2025-09-12 11:00" then some ⟨false, 11⟩
  else none

/-- P2's articles: A(12:00), B(no ts), C(no ts), D(11:00). -/
def artsC1 : List Value :=
  [.dict [("id", .int 1), ("published_at", .str "2025-09-12 12:00")],
   .dict [("id", .int 2)],
   .dict [("id", .int 3)],
   .dict [("id", .int 4), ("published_at", .str "2025-09-12 11:00")]]

/-- The parse outcome of each P2 article, via the code's own pipeline. -/
def optTsC1 : Value → Option DT := fun v =>
  normalizeTs dpC1 (getByPathScalar v (some "published_at"))

/-! ## Lemmas about the annotation pass -/

/-- If every article's timestamp extraction succeeds with result `f a`,
the annotation loop succeeds and produces the described records. -/
theorem annotateGo_ok_of {dp : String → Option DT} {pp : Value}
    {f : Value → Option DT} {arts : List Value}
    (h : ∀ a ∈ arts, parsedOf dp pp a = .ok (f a)) :
    ∀ i, annotateGo dp pp i arts = .ok (annPure f i arts) := by
  induction arts with
  | nil => intro i; rfl
  | cons a rest ih =>
    intro i
    have ha : parsedOf dp pp a = .ok (f a) := h a (by simp)
    have hr := ih (fun x hx => h x (by simp [hx])) (i + 1)
    simp [annotateGo, ha, hr, annPure]

/-- A successful annotation pass carries exactly the input articles,
in order. -/
theorem annotateGo_ok_article {dp : String → Option DT} {pp : Value} :
    ∀ (arts : List Value) (i : Nat) (ann : List Annotated),
    annotateGo dp pp i arts = .ok ann →
    ann.map (fun a => a.article) = arts := by
  intro arts
  induction arts with
  | nil =>
    intro i ann h
    simp only [annotateGo] at h
    cases h
    rfl
  | cons a rest ih =>
    intro i ann h
    simp only [annotateGo] at h
    cases hp : parsedOf dp pp a with
    | error e => rw [hp] at h; cases h
    | ok p =>
      rw [hp] at h
      cases hr : annotateGo dp pp (i + 1) rest with
      | error e => rw [hr] at h; cases h
      | ok r =>
        rw [hr] at h
        cases h
        simpa using ih (i + 1) r hr

theorem annPure_article (f : Value → Option DT) :
    ∀ (arts : List Value) (i : Nat),
    (annPure f i arts).map (fun a => a.article) = arts := by
  intro arts
  induction arts with
  | nil => intro i; rfl
  | cons a rest ih => intro i; simp [annPure, ih]

theorem annPure_mem {f : Value → Option DT} :
    ∀ {arts : List Value} {i : Nat} {x : Annotated},
    x ∈ annPure f i arts →
    x.parsedAt = f x.article ∧ x.article ∈ arts ∧ i ≤ x.origIndex := by
  intro arts
  induction arts with
  | nil => intro i x h; cases h
  | cons a rest ih =>
    intro i x h
    rcases List.mem_cons.mp h with h1 | h2
    · subst h1; exact ⟨rfl, by simp, Nat.le_refl i⟩
    · obtain ⟨hp, hm, hi⟩ := ih h2
      exact ⟨hp, by simp [hm], Nat.le_of_succ_le hi⟩

theorem annPure_pairwise_idx (f : Value → Option DT) :
    ∀ (arts : List Value) (i : Nat),
    (annPure f i arts).Pairwise (fun a b => a.origIndex < b.origIndex) := by
  intro arts
  induction arts with
  | nil => intro i; exact List.Pairwise.nil
  | cons a rest ih =>
    intro i
    refine List.Pairwise.cons ?_ (ih (i + 1))
    intro y hy
    have := (annPure_mem hy).2.2
    simpa using Nat.lt_of_lt_of_le (Nat.lt_succ_self i) this

theorem annPure_any (f : Value → Option DT) :
    ∀ (arts : List Value) (i : Nat),
    ((annPure f i arts).any fun x => x.parsedAt.isSome)
      = arts.any (fun a => (f a).isSome) := by
  intro arts
  induction arts with
  | nil => intro i; rfl
  | cons a rest ih => intro i; simp [annPure, ih]

theorem annPure_filter_map (f : Value → Option DT) (q : Option DT → Bool) :
    ∀ (arts : List Value) (i : Nat),
    (((annPure f i arts).filter (fun x => q x.parsedAt)).map fun a => a.article)
      = arts.filter (fun a => q (f a)) := by
  intro arts
  induction arts with
  | nil => intro i; rfl
  | cons a rest ih =>
    intro i
    simp only [annPure, List.filter]
    cases hq : q (f a) <;> simp [hq, ih]

theorem annPure_pairwise_of {R : Value → Value → Prop}
    {f : Value → Option DT} :
    ∀ {arts : List Value}, arts.Pairwise R → ∀ i,
    (annPure f i arts).Pairwise (fun x y => R x.article y.article) := by
  intro arts
  induction arts with
  | nil => intro _ i; exact List.Pairwise.nil
  | cons a rest ih =>
    intro h i
    rcases List.pairwise_cons.mp h with ⟨hhead, htail⟩
    refine List.Pairwise.cons ?_ (ih htail (i + 1))
    intro y hy
    exact hhead y.article (annPure_mem hy).2.1

/-! ## Lemmas about the sorting passes -/

theorem insED_ok_perm {x : Annotated} :
    ∀ {l m : List Annotated}, insED x l = .ok m → m.Perm (x :: l) := by
  intro l
  induction l with
  | nil =>
    intro m h
    simp only [insED] at h
    cases h
    exact List.Perm.refl _
  | cons y ys ih =>
    intro m h
    simp only [insED] at h
    cases hc : ltAnn x y with
    | error e => rw [hc] at h; cases h
    | ok b =>
      rw [hc] at h
      cases b with
      | false =>
        simp only at h
        cases h
        exact List.Perm.refl _
      | true =>
        simp only at h
        cases hr : insED x ys with
        | error e => rw [hr] at h; cases h
        | ok r =>
          rw [hr] at h
          cases h
          exact (List.Perm.cons y (ih hr)).trans (List.Perm.swap x y ys)

theorem sortED_ok_perm :
    ∀ {l m : List Annotated}, sortED l = .ok m → m.Perm l := by
  intro l
  induction l with
  | nil =>
    intro m h
    cases h
    exact List.Perm.refl _
  | cons x xs ih =>
    intro m h
    simp only [sortED] at h
    cases hr : sortED xs with
    | error e => rw [hr] at h; cases h
    | ok r =>
      rw [hr] at h
      exact (insED_ok_perm h).trans (List.Perm.cons x (ih hr))

theorem insD_perm (x : Annotated) :
    ∀ (l : List Annotated), (insD x l).Perm (x :: l) := by
  intro l
  induction l with
  | nil => exact List.Perm.refl _
  | cons y ys ih =>
    simp only [insD]
    by_cases hlt : kAnn x < kAnn y
    · simp only [hlt, if_true]
      exact (List.Perm.cons y ih).trans (List.Perm.swap x y ys)
    · simp only [hlt, if_false]
      exact List.Perm.refl _

theorem sortD_perm : ∀ (l : List Annotated), (sortD l).Perm l := by
  intro l
  induction l with
  | nil => exact List.Perm.refl _
  | cons x xs ih => exact (insD_perm x (sortD xs)).trans (List.Perm.cons x ih)

/-- On a list whose keys all share one awareness, insertion never raises
and computes the pure descending insertion. -/
theorem insED_ok_of_uniform {c : Bool} {x : Annotated}
    (hx : (keyOf x).aware = c) :
    ∀ {l : List Annotated}, (∀ y ∈ l, (keyOf y).aware = c) →
    insED x l = .ok (insD x l) := by
  intro l
  induction l with
  | nil => intro _; rfl
  | cons y ys ih =>
    intro h
    have hy : (keyOf y).aware = c := h y (by simp)
    have hcmp : ltAnn x y = .ok (decide (kAnn x < kAnn y)) := by
      simp [ltAnn, DT.pyLt, hx, hy, kAnn]
    have hys := ih (fun z hz => h z (by simp [hz]))
    by_cases hlt : kAnn x < kAnn y
    · simp [insED, hcmp, hlt, insD, hys]
    · simp [insED, hcmp, hlt, insD]

/-- On a list whose keys all share one awareness, the stable descending
sort never raises and computes the pure insertion sort. -/
theorem sortED_ok_of_uniform {c : Bool} :
    ∀ {l : List Annotated}, (∀ y ∈ l, (keyOf y).aware = c) →
    sortED l = .ok (sortD l) := by
  intro l
  induction l with
  | nil => intro _; rfl
  | cons x xs ih =>
    intro h
    have hxs := ih (fun z hz => h z (by simp [hz]))
    have hx : (keyOf x).aware = c := h x (by simp)
    have hmem : ∀ y ∈ sortD xs, (keyOf y).aware = c := fun y hy =>
      h y (List.mem_cons_of_mem x ((sortD_perm xs).mem_iff.mp hy))
    simp [sortED, hxs, insED_ok_of_uniform hx hmem, sortD]

theorem insD_pairwise {x : Annotated} :
    ∀ {l : List Annotated},
    l.Pairwise (fun a b => kAnn b ≤ kAnn a) →
    (insD x l).Pairwise (fun a b => kAnn b ≤ kAnn a) := by
  intro l
  induction l with
  | nil => intro _; simp [insD]
  | cons y ys ih =>
    intro h
    rcases List.pairwise_cons.mp h with ⟨hy, hys⟩
    simp only [insD]
    by_cases hlt : kAnn x < kAnn y
    · simp only [hlt, if_true]
      refine List.pairwise_cons.mpr ⟨?_, ih hys⟩
      intro z hz
      rcases List.mem_cons.mp ((insD_perm x ys).mem_iff.mp hz) with rfl | hz
      · exact Nat.le_of_lt hlt
      · exact hy z hz
    · simp only [hlt, if_false]
      refine List.pairwise_cons.mpr ⟨?_, h⟩
      intro z hz
      rcases List.mem_cons.mp hz with rfl | hz
      · exact Nat.le_of_not_lt hlt
      · exact Nat.le_trans (hy z hz) (Nat.le_of_not_lt hlt)

/-- The pure descending insertion sort is sorted (weakly descending). -/
theorem sortD_pairwise :
    ∀ (l : List Annotated),
    (sortD l).Pairwise (fun a b => kAnn b ≤ kAnn a) := by
  intro l
  induction l with
  | nil => exact List.Pairwise.nil
  | cons x xs ih => exact insD_pairwise ih

theorem insD_append_zero {x : Annotated} (hx : kAnn x = 0) :
    ∀ (ys zs : List Annotated), (∀ y ∈ ys, 0 < kAnn y) →
    (∀ z ∈ zs, kAnn z = 0) →
    insD x (ys ++ zs) = ys ++ x :: zs := by
  intro ys
  induction ys with
  | nil =>
    intro zs _ hzs
    cases zs with
    | nil => rfl
    | cons z zs2 =>
      have : ¬ (kAnn x < kAnn z) := by rw [hx, hzs z (by simp)]; omega
      simp [insD, this]
  | cons y ys2 ih =>
    intro zs hys hzs
    have hlt : kAnn x < kAnn y := by rw [hx]; exact hys y (by simp)
    simp only [List.cons_append, insD, hlt, if_true, List.append_eq]
    rw [ih zs (fun w hw => hys w (by simp [hw])) hzs]

theorem insD_append_pos {x : Annotated} (hx : 0 < kAnn x) :
    ∀ (ys zs : List Annotated), (∀ z ∈ zs, kAnn z = 0) →
    insD x (ys ++ zs) = insD x ys ++ zs := by
  intro ys
  induction ys with
  | nil =>
    intro zs hzs
    cases zs with
    | nil => rfl
    | cons z zs2 =>
      have : ¬ (kAnn x < kAnn z) := by rw [hzs z (by simp)]; omega
      simp [insD, this]
  | cons y ys2 ih =>
    intro zs hzs
    simp only [List.cons_append, insD, List.append_eq]
    by_cases hlt : kAnn x < kAnn y
    · simp [hlt, ih zs hzs]
    · simp [hlt]

/-- The stable descending sort sends every zero-key element (the articles
without a parsed timestamp, keyed by `datetime.min`) behind all
positive-key elements, keeping the zero-key elements in input order. -/
theorem sortD_split :
    ∀ (l : List Annotated),
    sortD l = sortD (l.filter fun x => decide (0 < kAnn x))
      ++ l.filter (fun x => decide (kAnn x = 0)) := by
  intro l
  induction l with
  | nil => rfl
  | cons x l ih =>
    have hposmem : ∀ y ∈ sortD (l.filter fun x => decide (0 < kAnn x)), 0 < kAnn y := by
      intro y hy
      have := (sortD_perm _).mem_iff.mp hy
      simpa using (List.mem_filter.mp this).2
    have hzeromem : ∀ z ∈ l.filter (fun x => decide (kAnn x = 0)), kAnn z = 0 := by
      intro z hz
      simpa using (List.mem_filter.mp hz).2
    by_cases hx : kAnn x = 0
    · have h1 : (decide (0 < kAnn x)) = false := by simp [hx]
      have h2 : (decide (kAnn x = 0)) = true := by simp [hx]
      simp only [sortD, List.filter_cons, h1, h2, if_true, if_false, ih]
      exact insD_append_zero hx _ _ hposmem hzeromem
    · have hpos : 0 < kAnn x := Nat.pos_of_ne_zero hx
      have h1 : (decide (0 < kAnn x)) = true := by simp [hpos]
      have h2 : (decide (kAnn x = 0)) = false := by simp [hx]
      simp only [sortD, List.filter_cons, h1, h2, if_true, if_false, ih]
      exact insD_append_pos hpos _ _ hzeromem

theorem insA_perm (x : Annotated) :
    ∀ (l : List Annotated), (insA x l).Perm (x :: l) := by
  intro l
  induction l with
  | nil => exact List.Perm.refl _
  | cons y ys ih =>
    simp only [insA]
    by_cases hlt : y.origIndex < x.origIndex
    · simp only [hlt, if_true]
      exact (List.Perm.cons y ih).trans (List.Perm.swap x y ys)
    · simp only [hlt, if_false]
      exact List.Perm.refl _

theorem sortA_perm : ∀ (l : List Annotated), (sortA l).Perm l := by
  intro l
  induction l with
  | nil => exact List.Perm.refl _
  | cons x xs ih => exact (insA_perm x (sortA xs)).trans (List.Perm.cons x ih)

theorem insA_head {x : Annotated} {l : List Annotated}
    (h : ∀ y ∈ l, x.origIndex < y.origIndex) : insA x l = x :: l := by
  cases l with
  | nil => rfl
  | cons y ys =>
    have hy : ¬ (y.origIndex < x.origIndex) := by
      have := h y (by simp)
      omega
    simp [insA, hy]

/-- Sorting by original index leaves a list whose indices already increase
(as produced by the annotation loop) unchanged. -/
theorem sortA_eq_self :
    ∀ {l : List Annotated},
    l.Pairwise (fun a b => a.origIndex < b.origIndex) → sortA l = l := by
  intro l
  induction l with
  | nil => intro _; rfl
  | cons x xs ih =>
    intro h
    rcases List.pairwise_cons.mp h with ⟨hx, hxs⟩
    simp only [sortA, ih hxs]
    exact insA_head hx

/-! ## Lemmas about slicing and the fallible map -/

theorem pySlice_map (f : α → β) (l : List α) (n : Int) :
    (pySlice l n).map f = pySlice (l.map f) n := by
  simp [pySlice, List.map_take]

theorem length_pySlice (l : List α) (n : Int) :
    (pySlice l n).length = min (sliceLen l.length n) l.length := by
  simp [pySlice]

theorem mapE_ok_length {f : α → Except Unit β} :
    ∀ {l : List α} {m : List β}, mapE f l = .ok m → m.length = l.length := by
  intro l
  induction l with
  | nil => intro m h; cases h; rfl
  | cons x xs ih =>
    intro m h
    simp only [mapE] at h
    cases hx : f x with
    | error e => rw [hx] at h; cases h
    | ok y =>
      rw [hx] at h
      cases hr : mapE f xs with
      | error e => rw [hr] at h; cases h
      | ok ys =>
        rw [hr] at h
        cases h
        simp [ih hr]

/-! ## Structural lemmas about `filter_top_n` -/

/-- Success inversion: whenever `filter_top_n` returns, its output is the
slice of a permutation of the annotated input, with annotations dropped. -/
theorem filter_top_n_ok_inv {dp : String → Option DT} {arts : List Value}
    {mapping : Value} {n : Int} {out : List Value}
    (h : filter_top_n dp arts mapping n = .ok out) :
    ∃ pp ann sorted, ppOf mapping = .ok pp ∧
      annotateGo dp pp 0 arts = .ok ann ∧ sorted.Perm ann ∧
      out = (pySlice sorted n).map (fun a => a.article) := by
  unfold filter_top_n at h
  cases hpp : ppOf mapping with
  | error e => simp [hpp] at h
  | ok pp =>
    simp only [hpp] at h
    cases hann : annotateGo dp pp 0 arts with
    | error e => simp [hann] at h
    | ok ann =>
      simp only [hann] at h
      cases hany : ann.any (fun a => a.parsedAt.isSome) with
      | false =>
        simp only [hany, Bool.false_eq_true, if_false, Except.ok.injEq] at h
        exact ⟨pp, ann, sortA ann, rfl, hann, sortA_perm ann, h.symm⟩
      | true =>
        simp only [hany, if_true] at h
        cases hs : sortED ann with
        | error e => simp [hs] at h
        | ok sorted =>
          simp only [hs, Except.ok.injEq] at h
          exact ⟨pp, ann, sorted, rfl, hann, sortED_ok_perm hs, h.symm⟩

/-- When every article's timestamp extraction succeeds with outcome `f`,
all keys share one awareness, and at least one article parses,
`filter_top_n` returns the slice of the pure stable descending sort. -/
theorem filter_top_n_parsed {dp : String → Option DT} {pp mapping : Value}
    {f : Value → Option DT} {arts : List Value} {n : Int} {c : Bool}
    (hpp : ppOf mapping = .ok pp)
    (hf : ∀ a ∈ arts, parsedOf dp pp a = .ok (f a))
    (hc : ∀ a ∈ arts, ((f a).getD dtMin).aware = c)
    (hany : arts.any (fun a => (f a).isSome) = true) :
    filter_top_n dp arts mapping n
      = .ok ((pySlice (sortD (annPure f 0 arts)) n).map (fun a => a.article)) := by
  have hann := annotateGo_ok_of hf 0
  have huni : ∀ y ∈ annPure f 0 arts, (keyOf y).aware = c := by
    intro y hy
    obtain ⟨hp, hm, _⟩ := annPure_mem hy
    simpa [keyOf, hp] using hc y.article hm
  have hAny2 : (annPure f 0 arts).any (fun a => a.parsedAt.isSome) = true := by
    rw [annPure_any]; exact hany
  unfold filter_top_n
  simp only [hpp, hann, hAny2, if_true]
  simp [sortED_ok_of_uniform huni]

/-- When no article's timestamp parses (but extraction itself succeeds),
`filter_top_n` returns the input order, sliced: the fallback branch. -/
theorem filter_top_n_noparse {dp : String → Option DT} {pp mapping : Value}
    {arts : List Value} {n : Int}
    (hpp : ppOf mapping = .ok pp)
    (hf : ∀ a ∈ arts, parsedOf dp pp a = .ok none) :
    filter_top_n dp arts mapping n = .ok (pySlice arts n) := by
  have hann := @annotateGo_ok_of dp pp (fun _ => none) arts hf 0
  have hAny : (annPure (fun _ => none) 0 arts).any (fun a => a.parsedAt.isSome)
      = false := by
    rw [annPure_any]; simp
  have hsorted : sortA (annPure (fun _ => none) 0 arts)
      = annPure (fun _ => none) 0 arts :=
    sortA_eq_self (annPure_pairwise_idx _ arts 0)
  unfold filter_top_n
  simp only [hpp, hann, hAny, Bool.false_eq_true, if_false, hsorted]
  rw [pySlice_map, annPure_article]

/-! ## Claim theorems -/

/-- C9: the timestamp normaliser treats every non-string raw value
(numbers included) as unparseable and never interprets a number as epoch
seconds or a date; an absent raw value is also unparseable, and so is an
empty string, for every possible behaviour of the underlying date parser. -/
theorem c9_nonstring_unparseable (dp : String → Option DT) (raw : Option Value) :
    (isStrOpt raw = false → normalizeTs dp raw = none) ∧
    normalizeTs dp (some (.str "")) = none := by
  constructor
  · intro h
    match raw with
    | none => rfl
    | some .null => rfl
    | some (.bool b) => rfl
    | some (.int n) => rfl
    | some (.list l) => rfl
    | some (.dict fs) => rfl
    | some (.str s) => simp [isStrOpt] at h
  · simp [normalizeTs, pyParseDate]

/-- C9 witness: a numeric timestamp `123456` is unparseable even under a
date parser that would succeed on every string. -/
theorem c9_witness :
    normalizeTs (fun _ => some ⟨false, 7⟩) (some (.int 123456)) = none :=
  (c9_nonstring_unparseable (fun _ => some ⟨false, 7⟩) (some (.int 123456))).1
    (by decide)

/-- C7: if no article's timestamp normalises (and extraction itself
succeeds), `filter_top_n` returns the input in its original order, sliced
to the limit; the branch taken sorts by original index and never invokes
the timestamp comparator. -/
theorem c7_noparse_preserves_order {dp : String → Option DT}
    {pp mapping : Value} {arts : List Value} {n : Int}
    (hpp : ppOf mapping = .ok pp)
    (hf : ∀ a ∈ arts, parsedOf dp pp a = .ok none) :
    filter_top_n dp arts mapping n = .ok (pySlice arts n) :=
  filter_top_n_noparse hpp hf

/-- C7 witness: three articles without any parseable timestamp come back
in input order. -/
theorem c7_witness :
    filter_top_n (fun _ => none)
      [Value.int 1, Value.int 2, Value.int 3] (Value.dict []) 10
      = .ok (pySlice [Value.int 1, Value.int 2, Value.int 3] 10) :=
  c7_noparse_preserves_order rfl (by intro a ha; fin_cases ha <;> rfl)

/-- C3 counterexample: two articles with limit `-1` give one article, not
an empty list, because `annotated[:n]` is a Python slice: a negative `n`
drops `|n|` items from the end instead of producing the empty list. -/
theorem c3_counterexample :
    filter_top_n (fun _ => none) [Value.int 1, Value.int 2] (Value.dict []) (-1)
      = .ok [Value.int 1] ∧ ([Value.int 1] : List Value).length = 1 :=
  ⟨rfl, rfl⟩

/-- C3 amended: whenever `filter_top_n` returns, the output length is the
Python slice length: `min(limit, len(input))` for `limit ≥ 0`, and
`max(0, len(input) + limit)` (truncated subtraction) for negative limits. -/
theorem c3_length {dp : String → Option DT} {arts : List Value}
    {mapping : Value} {n : Int} {out : List Value}
    (h : filter_top_n dp arts mapping n = .ok out) :
    out.length = min (sliceLen arts.length n) arts.length := by
  obtain ⟨pp, ann, sorted, hpp, hann, hperm, hout⟩ := filter_top_n_ok_inv h
  have h1 : ann.length = arts.length := by
    have hm := annotateGo_ok_article arts 0 ann hann
    calc ann.length = (ann.map (fun a => a.article)).length := by simp
    _ = arts.length := by rw [hm]
  have h2 : sorted.length = ann.length := hperm.length_eq
  subst hout
  simp [length_pySlice, h1, h2]

/-- C3 witness: three articles, limit 2, output length
`min 2 3 = 2`. -/
theorem c3_witness :
    ([Value.int 1, Value.int 2] : List Value).length = min (sliceLen 3 2) 3 :=
  @c3_length (fun _ => none) [Value.int 1, Value.int 2, Value.int 3]
    (Value.dict []) 2 [Value.int 1, Value.int 2] rfl

/-- C10: whenever `filter_top_n` returns, its output is a prefix of a
permutation of the input articles: every output element is one of the
input records, and no record occurs more often in the output than in the
input (the embedding is pure, so the inputs are never mutated). -/
theorem c10_prefix_of_perm {dp : String → Option DT} {arts : List Value}
    {mapping : Value} {n : Int} {out : List Value}
    (h : filter_top_n dp arts mapping n = .ok out) :
    ∃ l t, List.Perm arts l ∧ out = l.take t := by
  obtain ⟨pp, ann, sorted, hpp, hann, hperm, hout⟩ := filter_top_n_ok_inv h
  refine ⟨sorted.map (fun a => a.article), sliceLen sorted.length n, ?_, ?_⟩
  · have hmap : (sorted.map fun a => a.article).Perm (ann.map fun a => a.article) :=
      hperm.map _
    rw [annotateGo_ok_article arts 0 ann hann] at hmap
    exact hmap.symm
  · subst hout
    simp [pySlice, List.map_take]

/-- C10 witness: a concrete three-article run. -/
theorem c10_witness :
    ∃ l t, List.Perm [Value.int 1, Value.int 2, Value.int 3] l ∧
      [Value.int 1, Value.int 2] = l.take t :=
  @c10_prefix_of_perm (fun _ => none) [Value.int 1, Value.int 2, Value.int 3]
    (Value.dict []) 2 [Value.int 1, Value.int 2] rfl

/-- C6: the list-locating resolver `get_by_path` of `news_fetcher.py` is
not total: on `{"notdict": 1}` with path `"notdict.x"` it raises
`AttributeError` (`1` has no `.get`), and for a missing key it yields `{}`
rather than an empty sequence — both contradicted by the repository's own
test `test_news_processor.py`, which expects `[]` for both inputs.  The
scalar resolver `_get_by_path` is total and returns the missing signal on
the same input. -/
theorem c6_get_by_path_eval :
    getByPathList (.dict [("notdict", .int 1)]) "notdict.x" = .error () ∧
    getByPathList
      (.dict [("outer", .dict [("items", .list [.int 1, .int 2, .int 3])])])
      "outer.missing" = .ok (.dict []) ∧
    getByPathScalar (.dict [("notdict", .int 1)]) (some "notdict.x") = none :=
  ⟨rfl, rfl, rfl⟩

/-- C2: the Ranker is not total.  With two type-plausible timestamp
strings — one carrying a timezone offset (parsed by `dateutil` as an
aware datetime) and one without (parsed as naive) — the sort in
`filter_top_n` compares an aware with a naive datetime and raises
`TypeError`, which propagates to the caller. -/
theorem c2_ranker_raises :
    filter_top_n
      (fun s => if s = "2024-01-01T00:00:00+00:00" then some ⟨true, 500⟩
        else if s = "2024-01-01T00:00:00" then some ⟨false, 500⟩ else none)
      [.dict [("ts", .str "2024-01-01T00:00:00+00:00")],
       .dict [("ts", .str "2024-01-01T00:00:00")]]
      (.dict [("published_at_path", .str "ts")]) 10 = .error () := rfl

/-- C4 counterexample: an element whose extracted title and url are both
empty is not dropped: mapping `{"articles": [{}]}` yields one normalised
record whose title is the empty string. -/
theorem c4_counterexample :
    mapResponse (.dict []) (.dict [("articles", .list [.dict []])])
      = .dict [("articles",
          .list [.dict [("title", .str ""), ("url", .str "")]])] ∧
    dictGet [("title", Value.str ""), ("url", Value.str "")] "title"
      = some (.str "") :=
  ⟨rfl, rfl⟩

/-- C4 amended: the Mapper drops nothing: whenever the article list is
located and extraction succeeds, it emits exactly one normalised record
per located element, regardless of empty or absent titles and urls. -/
theorem c4_no_drop {mapping data : Value} {its arts : List Value}
    (h1 : locateItems mapping data = .ok its)
    (h2 : extractArticles mapping data = .ok arts) :
    arts.length = its.length := by
  unfold extractArticles at h2
  simp only [h1] at h2
  exact mapE_ok_length h2

/-- C4 witness: one empty located item, one emitted record. -/
theorem c4_witness :
    ([Value.dict [("title", Value.str ""), ("url", Value.str "")]] : List Value).length
      = ([Value.dict []] : List Value).length :=
  @c4_no_drop (Value.dict [])
    (Value.dict [("articles", Value.list [Value.dict []])])
    [Value.dict []]
    [Value.dict [("title", Value.str ""), ("url", Value.str "")]] rfl rfl

/-- C5 counterexample: the Mapper does not extract description or
published-at: an item carrying all four fields is normalised to a record
holding only title and url, with no description key. -/
theorem c5_counterexample :
    mapResponse (.dict [])
      (.dict [("articles", .list [.dict [("title", .str "T"), ("url", .str "U"),
        ("description", .str "D"), ("published_at", .str "2025-01-01")]])])
      = .dict [("articles",
          .list [.dict [("title", .str "T"), ("url", .str "U")]])] ∧
    dictGet [("title", Value.str "T"), ("url", Value.str "U")] "description"
      = none :=
  ⟨rfl, rfl⟩

/-- C5 amended: each normalised record carries exactly a title and a url,
looked up through the configured field names (defaulting to the literal
names "title" and "url"); description and published-at are not extracted. -/
theorem c5_title_url_only {mapping item rec : Value}
    (h : mapItem mapping item = .ok rec) :
    ∃ tk t uk u, vget mapping "title" (.str "title") = .ok tk ∧
      itemGet item tk = .ok t ∧ vget mapping "url" (.str "url") = .ok uk ∧
      itemGet item uk = .ok u ∧ rec = .dict [("title", t), ("url", u)] := by
  unfold mapItem at h
  cases h1 : vget mapping "title" (.str "title") with
  | error e => simp [h1] at h
  | ok tk =>
    simp only [h1] at h
    cases h2 : itemGet item tk with
    | error e => simp [h2] at h
    | ok t =>
      simp only [h2] at h
      cases h3 : vget mapping "url" (.str "url") with
      | error e => simp [h3] at h
      | ok uk =>
        simp only [h3] at h
        cases h4 : itemGet item uk with
        | error e => simp [h4] at h
        | ok u =>
          simp only [h4, Except.ok.injEq] at h
          exact ⟨tk, t, uk, u, rfl, h2, rfl, h4, h.symm⟩

/-- C5 witness: a record built from an item with all four fields. -/
theorem c5_witness :
    ∃ tk t uk u,
      vget (Value.dict []) "title" (.str "title") = .ok tk ∧
      itemGet (Value.dict [("title", Value.str "T"), ("url", Value.str "U"),
        ("description", Value.str "D")]) tk = .ok t ∧
      vget (Value.dict []) "url" (.str "url") = .ok uk ∧
      itemGet (Value.dict [("title", Value.str "T"), ("url", Value.str "U"),
        ("description", Value.str "D")]) uk = .ok u ∧
      Value.dict [("title", Value.str "T"), ("url", Value.str "U")]
        = .dict [("title", t), ("url", u)] :=
  @c5_title_url_only (Value.dict [])
    (Value.dict [("title", Value.str "T"), ("url", Value.str "U"),
      ("description", Value.str "D")])
    (Value.dict [("title", Value.str "T"), ("url", Value.str "U")]) rfl

/-- C8: when every article's timestamp parses, all to one timezone
awareness, and the parsed instants are pairwise distinct, `filter_top_n`
returns and its output is sorted strictly descending by parsed instant
(newest first). -/
theorem c8_sorted_desc {dp : String → Option DT} {pp mapping : Value}
    {arts : List Value} {n : Int} {ts : Value → DT} {c : Bool}
    (hpp : ppOf mapping = .ok pp)
    (hts : ∀ a ∈ arts, parsedOf dp pp a = .ok (some (ts a)))
    (haw : ∀ a ∈ arts, (ts a).aware = c)
    (hd : arts.Pairwise (fun a b => (ts a).instant ≠ (ts b).instant)) :
    ∃ out, filter_top_n dp arts mapping n = .ok out ∧
      out.Pairwise (fun a b => (ts b).instant < (ts a).instant) := by
  cases arts with
  | nil =>
    refine ⟨[], ?_, List.Pairwise.nil⟩
    have h0 := @filter_top_n_noparse dp pp mapping [] n hpp
      (fun a ha => absurd ha (List.not_mem_nil a))
    have hn : pySlice ([] : List Value) n = [] := by simp [pySlice]
    rw [hn] at h0
    exact h0
  | cons a0 rest =>
    have heq := @filter_top_n_parsed dp pp mapping (fun a => some (ts a))
      (a0 :: rest) n c hpp hts
      (by intro a ha; simpa using haw a ha) (by simp)
    refine ⟨_, heq, ?_⟩
    have hkey : ∀ x ∈ annPure (fun a => some (ts a)) 0 (a0 :: rest),
        kAnn x = (ts x.article).instant := by
      intro x hx
      obtain ⟨hp, _, _⟩ := annPure_mem hx
      simp [kAnn, keyOf, hp]
    have hsort := sortD_pairwise (annPure (fun a => some (ts a)) 0 (a0 :: rest))
    have hne : (annPure (fun a => some (ts a)) 0 (a0 :: rest)).Pairwise
        (fun x y => (ts x.article).instant ≠ (ts y.article).instant) :=
      annPure_pairwise_of hd 0
    have hne2 := ((sortD_perm _).pairwise_iff (fun {a b} hab => hab.symm)).mpr hne
    have hco := hsort.and hne2
    have hstrict : (sortD (annPure (fun a => some (ts a)) 0 (a0 :: rest))).Pairwise
        (fun x y => (ts y.article).instant < (ts x.article).instant) := by
      refine hco.imp_of_mem ?_
      intro x y hx hy hxy
      have h1 := hxy.1
      rw [hkey x ((sortD_perm _).mem_iff.mp hx),
        hkey y ((sortD_perm _).mem_iff.mp hy)] at h1
      exact Nat.lt_of_le_of_ne h1 hxy.2.symm
    exact List.pairwise_map.mpr (hstrict.sublist (List.take_sublist _ _))

/-- C8 witness: the spec's scenario (ids 1, 2, 3 published 10:00, 12:00,
09:00) produces a strictly descending output. -/
theorem c8_witness :
    ∃ out, filter_top_n dpC8 artsC8 mapPA 10 = .ok out ∧
      out.Pairwise (fun a b => (tsC8 b).instant < (tsC8 a).instant) :=
  @c8_sorted_desc dpC8
    ((dictGet [("published_at_path", Value.str "published_at")] "published_at_path").getD Value.null)
    mapPA artsC8 10 tsC8 true rfl
    (by intro a ha; fin_cases ha <;> rfl)
    (by intro a ha; fin_cases ha <;> rfl)
    (by decide)

/-- C1 counterexample: `dateutil.parser.parse("0001-01-01 00:00:00")`
returns `datetime.min` — exactly the sentinel key given to unparsed
articles — so an article parsed at `datetime.min` ties with unparsed
articles and the stable sort keeps input order: here article B (id 2,
unparsed) stays before article A (id 1, successfully parsed), violating
"every unparsed article is ordered after every parsed article" even
though at least one article parsed.  The last two conjuncts certify that
B is unparsed and A parses under the fixture parser. -/
theorem c1_counterexample :
    filter_top_n
      (fun s => if s = "0001-01-01 00:00:00" then some ⟨false, 0⟩ else none)
      [.dict [("id", .int 2)],
       .dict [("id", .int 1), ("ts", .str "0001-01-01 00:00:00")]]
      (.dict [("published_at_path", .str "ts")]) 10
      = .ok [.dict [("id", .int 2)],
             .dict [("id", .int 1), ("ts", .str "0001-01-01 00:00:00")]] ∧
    normalizeTs (fun s => if s = "0001-01-01 00:00:00" then some ⟨false, 0⟩ else none)
      (getByPathScalar (.dict [("id", .int 2)]) (some "ts")) = none ∧
    normalizeTs (fun s => if s = "0001-01-01 00:00:00" then some ⟨false, 0⟩ else none)
      (getByPathScalar
        (.dict [("id", .int 1), ("ts", .str "0001-01-01 00:00:00")]) (some "ts"))
      = some ⟨false, 0⟩ :=
  ⟨rfl, rfl, rfl⟩

/-- C1 amended: when at least one article's timestamp parses, all parsed
timestamps are naive, and every parsed timestamp is strictly later than
`datetime.min`, the output splits as parsed articles followed by unparsed
articles, the unparsed ones keeping their original relative input order
(a prefix of the input's unparsed subsequence). -/
theorem c1_parsed_before_unparsed {dp : String → Option DT}
    {pp mapping : Value} {arts : List Value} {n : Int}
    {optTs : Value → Option DT}
    (hpp : ppOf mapping = .ok pp)
    (hts : ∀ a ∈ arts, parsedOf dp pp a = .ok (optTs a))
    (haw : ∀ a ∈ arts, ((optTs a).all fun d => !d.aware) = true)
    (hpos : ∀ a ∈ arts, ((optTs a).all fun d => decide (0 < d.instant)) = true)
    (hsome : (arts.any fun a => (optTs a).isSome) = true) :
    ∃ out outP outU t, filter_top_n dp arts mapping n = .ok out ∧
      out = outP ++ outU ∧
      (∀ v ∈ outP, (optTs v).isSome = true) ∧
      outU = (arts.filter fun a => (optTs a).isNone).take t := by
  have hc : ∀ a ∈ arts, ((optTs a).getD dtMin).aware = false := by
    intro a ha
    have hw := haw a ha
    cases h : optTs a with
    | none => simp [dtMin]
    | some d => rw [h] at hw; simpa using hw
  have heq := @filter_top_n_parsed dp pp mapping optTs arts n false hpp hts hc hsome
  have hkmem : ∀ x ∈ annPure optTs 0 arts,
      x.parsedAt = optTs x.article ∧ x.article ∈ arts := by
    intro x hx
    obtain ⟨h1, h2, _⟩ := annPure_mem hx
    exact ⟨h1, h2⟩
  have hsplit := sortD_split (annPure optTs 0 arts)
  have hout : pySlice (sortD (annPure optTs 0 arts)) n
      = (sortD ((annPure optTs 0 arts).filter fun x => decide (0 < kAnn x))).take
          (sliceLen (sortD (annPure optTs 0 arts)).length n)
        ++ ((annPure optTs 0 arts).filter fun x => decide (kAnn x = 0)).take
          (sliceLen (sortD (annPure optTs 0 arts)).length n
            - (sortD ((annPure optTs 0 arts).filter fun x => decide (0 < kAnn x))).length) := by
    calc pySlice (sortD (annPure optTs 0 arts)) n
        = (sortD (annPure optTs 0 arts)).take
            (sliceLen (sortD (annPure optTs 0 arts)).length n) := rfl
      _ = _ := by rw [hsplit, List.take_append_eq_append_take]
  refine ⟨_,
    ((sortD ((annPure optTs 0 arts).filter fun x => decide (0 < kAnn x))).take
      (sliceLen (sortD (annPure optTs 0 arts)).length n)).map (fun a => a.article),
    (((annPure optTs 0 arts).filter fun x => decide (kAnn x = 0)).take
      (sliceLen (sortD (annPure optTs 0 arts)).length n
        - (sortD ((annPure optTs 0 arts).filter fun x => decide (0 < kAnn x))).length)).map
      (fun a => a.article),
    sliceLen (sortD (annPure optTs 0 arts)).length n
      - (sortD ((annPure optTs 0 arts).filter fun x => decide (0 < kAnn x))).length,
    heq, ?_, ?_, ?_⟩
  · rw [hout, List.map_append]
  · intro v hv
    obtain ⟨x, hx, rfl⟩ := List.mem_map.mp hv
    have hx2 : x ∈ sortD ((annPure optTs 0 arts).filter fun x => decide (0 < kAnn x)) :=
      List.mem_of_mem_take hx
    have hx3 := (sortD_perm _).mem_iff.mp hx2
    have hx4 := List.mem_filter.mp hx3
    obtain ⟨hpx, _⟩ := hkmem x hx4.1
    cases hopt : optTs x.article with
    | some d => simp
    | none =>
      exfalso
      have hz : kAnn x = 0 := by simp [kAnn, keyOf, hpx, hopt, dtMin]
      have := hx4.2
      rw [hz] at this
      simp at this
  · have hcongr : ((annPure optTs 0 arts).filter fun x => decide (kAnn x = 0))
        = (annPure optTs 0 arts).filter (fun x => x.parsedAt.isNone) := by
      refine List.filter_congr ?_
      intro x hx
      obtain ⟨hpx, hax⟩ := hkmem x hx
      cases hopt : optTs x.article with
      | none => simp [kAnn, keyOf, hpx, hopt, dtMin]
      | some d =>
        have hp := hpos x.article hax
        rw [hopt] at hp
        have hdpos : 0 < d.instant := by simpa using hp
        have hne : d.instant ≠ 0 := Nat.pos_iff_ne_zero.mp hdpos
        have hk : kAnn x = d.instant := by simp [kAnn, keyOf, hpx, hopt]
        simp [hk, hpx, hopt, hne]
    rw [List.map_take, hcongr, annPure_filter_map]

/-- C1 witness: the spec's P2 example — A(12:00), B(no ts), C(no ts),
D(11:00) — splits into parsed articles followed by the unparsed ones in
input order. -/
theorem c1_witness :
    ∃ out outP outU t, filter_top_n dpC1 artsC1 mapPA 10 = .ok out ∧
      out = outP ++ outU ∧
      (∀ v ∈ outP, (optTsC1 v).isSome = true) ∧
      outU = (artsC1.filter fun a => (optTsC1 a).isNone).take t :=
  c1_parsed_before_unparsed rfl
    (by intro a ha; fin_cases ha <;> rfl)
    (by intro a ha; fin_cases ha <;> rfl)
    (by intro a ha; fin_cases ha <;> rfl)
    (by decide)
